import Mathlib

/-!
# Verification of the 1D Burgers' finite-difference solver

Shallow embedding of the time-marching loop of
`steps/04_burgers_equation.ipynb` (cells 5–7).  The field is a dense
list of rationals; the in-place interior sweep of the Python loop is
modelled as a left fold of `List.set` over the interior index order,
reading only the snapshot `un` taken at the start of the step, exactly
as the source does.
-/

namespace Burgers

/-- The interior update formula of the source line
`u[i] = un[i] - un[i] * dt / dx * (un[i] - un[i-1])
      + nu * dt / dx**2 * (un[i+1] - 2 * un[i] + un[i-1])`,
read from the snapshot `un`. -/
def newVal (dt dx nu : ℚ) (un : List ℚ) (i : ℕ) : ℚ :=
  un.getD i 0 - un.getD i 0 * dt / dx * (un.getD i 0 - un.getD (i - 1) 0)
    + nu * dt / dx ^ 2 * (un.getD (i + 1) 0 - 2 * un.getD i 0 + un.getD (i - 1) 0)

/-- The periodic boundary formula of the source line
`u[0] = un[0] - un[0] * dt / dx * (un[0] - un[-2])
      + nu * dt / dx**2 * (un[1] - 2 * un[0] + un[-2])`,
where Python's `un[-2]` is `un[nx - 2]`. -/
def boundaryVal (dt dx nu : ℚ) (un : List ℚ) : ℚ :=
  un.getD 0 0 - un.getD 0 0 * dt / dx * (un.getD 0 0 - un.getD (un.length - 2) 0)
    + nu * dt / dx ^ 2 *
      (un.getD 1 0 - 2 * un.getD 0 0 + un.getD (un.length - 2) 0)

/-- The in-place interior sweep `for i in range(1, nx-1): u[i] = ...`,
over an explicit list of indices so that the order of updates is part
of the model.  Every read is from the snapshot `un`. -/
def interiorSweep (dt dx nu : ℚ) (un : List ℚ) (idxs : List ℕ) (u : List ℚ) :
    List ℚ :=
  idxs.foldl (fun acc i => acc.set i (newVal dt dx nu un i)) u

/-- One time step of the loop body, with the interior sweep taken in the
given index order: snapshot `un := u`, interior sweep, then
`u[0] = ...` and `u[-1] = u[0]`. -/
def burgersStepWithOrder (dt dx nu : ℚ) (idxs : List ℕ) (u : List ℚ) : List ℚ :=
  let un := u
  let u1 := interiorSweep dt dx nu un idxs u
  let u2 := u1.set 0 (boundaryVal dt dx nu un)
  u2.set (u.length - 1) (u2.getD 0 0)

/-- One time step of the source loop body: the interior sweep runs over
`range(1, nx-1)`, i.e. indices `1, …, nx-2` in increasing order. -/
def burgersStep (dt dx nu : ℚ) (u : List ℚ) : List ℚ :=
  burgersStepWithOrder dt dx nu (List.range' 1 (u.length - 2)) u

/-- The time-marching loop `for n in range(nt): …`: apply `burgersStep`
`nt` times, first iteration first. -/
def integrate (dt dx nu : ℚ) : ℕ → List ℚ → List ℚ
  | 0, u => u
  | n + 1, u => integrate dt dx nu n (burgersStep dt dx nu u)

/-- The scalar parameters of the run, fixed before the loop (cell 5). -/
structure SimulationParameters where
  nt : ℕ
  dt : ℚ
  dx : ℚ
  nu : ℚ
deriving DecidableEq

/-- A full run: the integrator applied to the initial field with the
given parameters. -/
def run (p : SimulationParameters) (u : List ℚ) : List ℚ :=
  integrate p.dt p.dx p.nu p.nt u

/-- Every snapshot index read or written by one time step: the interior
sweep at `i` reads `i-1`, `i`, `i+1`; the boundary update reads `0`,
`1`, `nx-2` and writes `0` and `nx-1`. -/
def stepTouched (nx : ℕ) : List ℕ :=
  ((List.range' 1 (nx - 2)).flatMap fun i => [i - 1, i, i + 1])
    ++ [0, 1, nx - 2, nx - 1]

/-- Modelled from the spec: the repository's `Grid` component and its
`ConfigurationError` are not part of the extracted source (the notebook
sets `dx` and `x` directly); the spec says a grid with point count < 2
fails with `ConfigurationError`, and otherwise spacing is
domain length / (points − 1) with uniformly spaced coordinates. -/
inductive ConfigurationError where
  | invalidGrid : ConfigurationError
deriving DecidableEq

/-- Modelled from the spec: the grid stores the derived spacing and the
coordinate array. -/
structure Grid where
  spacing : ℚ
  coords : List ℚ
deriving DecidableEq

/-- Modelled from the spec: grid construction from the domain length and
point count; fails with `ConfigurationError` when the point count is
below 2, otherwise returns spacing `L / (points − 1)` and the coordinate
array `[0, dx, 2·dx, …]` (the notebook's `np.linspace(0, 2π, nx)`). -/
def mkGrid (L : ℚ) (points : ℕ) : Except ConfigurationError Grid :=
  if points < 2 then .error .invalidGrid
  else
    .ok { spacing := L / ((points : ℚ) - 1),
          coords := (List.range points).map fun i => (i : ℚ) * (L / ((points : ℚ) - 1)) }

/-! ## Helper lemmas -/

theorem getD_set (u : List ℚ) (j i : ℕ) (v : ℚ) :
    (u.set j v).getD i 0 = if j = i ∧ j < u.length then v else u.getD i 0 := by
  by_cases hj : j = i
  · subst hj
    by_cases hl : j < u.length
    · simp [List.getD_eq_getElem?_getD, List.getElem?_set_self, hl]
    · simp only [List.set_eq_of_length_le (Nat.le_of_not_lt hl)]
      simp [hl]
  · simp [List.getD_eq_getElem?_getD, List.getElem?_set_ne hj, hj]

theorem foldl_set_length (f : ℕ → ℚ) (idxs : List ℕ) (u : List ℚ) :
    (idxs.foldl (fun acc j => acc.set j (f j)) u).length = u.length := by
  induction idxs generalizing u with
  | nil => rfl
  | cons j rest ih => simp [List.foldl_cons, ih]

theorem foldl_set_getD (f : ℕ → ℚ) (idxs : List ℕ) (u : List ℚ) (i : ℕ) :
    (idxs.foldl (fun acc j => acc.set j (f j)) u).getD i 0 =
      if i ∈ idxs ∧ i < u.length then f i else u.getD i 0 := by
  induction idxs generalizing u with
  | nil => simp
  | cons j rest ih =>
    rw [List.foldl_cons, ih, getD_set]
    simp only [List.length_set, List.mem_cons]
    by_cases hj : j = i
    · subst hj
      by_cases hl : j < u.length <;> by_cases hr : j ∈ rest <;> simp [hl, hr]
    · have hij : ¬i = j := fun h => hj h.symm
      by_cases hl : i < u.length <;> by_cases hr : i ∈ rest <;>
        simp [hj, hij, hl, hr]

theorem interiorSweep_length (dt dx nu : ℚ) (un : List ℚ) (idxs : List ℕ)
    (u : List ℚ) : (interiorSweep dt dx nu un idxs u).length = u.length :=
  foldl_set_length _ idxs u

theorem interiorSweep_getD (dt dx nu : ℚ) (un : List ℚ) (idxs : List ℕ)
    (u : List ℚ) (i : ℕ) :
    (interiorSweep dt dx nu un idxs u).getD i 0 =
      if i ∈ idxs ∧ i < u.length then newVal dt dx nu un i else u.getD i 0 :=
  foldl_set_getD _ idxs u i

theorem burgersStepWithOrder_length (dt dx nu : ℚ) (idxs : List ℕ)
    (u : List ℚ) : (burgersStepWithOrder dt dx nu idxs u).length = u.length := by
  simp [burgersStepWithOrder, interiorSweep_length]

theorem burgersStep_length (dt dx nu : ℚ) (u : List ℚ) :
    (burgersStep dt dx nu u).length = u.length :=
  burgersStepWithOrder_length dt dx nu _ u

theorem integrate_length (dt dx nu : ℚ) (n : ℕ) (u : List ℚ) :
    (integrate dt dx nu n u).length = u.length := by
  induction n generalizing u with
  | zero => rfl
  | succ n ih => rw [integrate, ih, burgersStep_length]

theorem integrate_succ (dt dx nu : ℚ) (n : ℕ) (u : List ℚ) :
    integrate dt dx nu (n + 1) u = burgersStep dt dx nu (integrate dt dx nu n u) := by
  induction n generalizing u with
  | zero => rfl
  | succ n ih => rw [integrate, ih, integrate]

theorem burgersStep_getD_interior (dt dx nu : ℚ) (u : List ℚ) (i : ℕ)
    (h1 : 1 ≤ i) (h2 : i ≤ u.length - 2) :
    (burgersStep dt dx nu u).getD i 0 = newVal dt dx nu u i := by
  have hlen : 3 ≤ u.length := by omega
  have hmem : i ∈ List.range' 1 (u.length - 2) := by
    simp only [List.mem_range'_1]
    omega
  simp only [burgersStep, burgersStepWithOrder, getD_set, List.length_set,
    interiorSweep_getD, interiorSweep_length]
  have hA : ¬(u.length - 1 = i ∧ u.length - 1 < u.length) := by omega
  have hB : ¬(0 = i ∧ 0 < u.length) := by omega
  rw [if_neg hA, if_neg hB, if_pos ⟨hmem, by omega⟩]

theorem burgersStep_getD_zero (dt dx nu : ℚ) (u : List ℚ) (h : 2 ≤ u.length) :
    (burgersStep dt dx nu u).getD 0 0 = boundaryVal dt dx nu u := by
  simp only [burgersStep, burgersStepWithOrder, getD_set, List.length_set,
    interiorSweep_getD, interiorSweep_length]
  have hA : ¬(u.length - 1 = 0 ∧ u.length - 1 < u.length) := by omega
  rw [if_neg hA, if_pos ⟨trivial, by omega⟩]

theorem burgersStep_getD_last (dt dx nu : ℚ) (u : List ℚ) (h : 2 ≤ u.length) :
    (burgersStep dt dx nu u).getD (u.length - 1) 0 =
      (burgersStep dt dx nu u).getD 0 0 := by
  rw [burgersStep_getD_zero dt dx nu u h]
  simp only [burgersStep, burgersStepWithOrder, getD_set, List.length_set,
    interiorSweep_getD, interiorSweep_length]
  rw [if_pos ⟨trivial, by omega⟩, if_pos ⟨trivial, by omega⟩]

theorem interiorSweep_congr_order (dt dx nu : ℚ) (un u : List ℚ)
    (idxs₁ idxs₂ : List ℕ) (h : ∀ i, i ∈ idxs₁ ↔ i ∈ idxs₂) :
    interiorSweep dt dx nu un idxs₁ u = interiorSweep dt dx nu un idxs₂ u := by
  apply List.ext_getElem
  · rw [interiorSweep_length, interiorSweep_length]
  · intro n h₁ h₂
    rw [← List.getD_eq_getElem _ 0 h₁, ← List.getD_eq_getElem _ 0 h₂,
      interiorSweep_getD, interiorSweep_getD]
    simp only [h n]

/-! ## Claims -/

/-- C1: at every time step, every interior index `1 ≤ i ≤ nx-2` of the
new field equals the explicit Burgers' update (backward-difference
convection scaled by the local field value plus central-difference
diffusion scaled by the viscosity) computed from the previous-step
snapshot. -/
theorem interior_update_formula (dt dx nu : ℚ) (u0 : List ℚ) (t i : ℕ)
    (h1 : 1 ≤ i) (h2 : i ≤ u0.length - 2) :
    (integrate dt dx nu (t + 1) u0).getD i 0 =
      newVal dt dx nu (integrate dt dx nu t u0) i := by
  rw [integrate_succ]
  apply burgersStep_getD_interior
  · exact h1
  · rw [integrate_length]
    exact h2

theorem interior_update_formula_witness :
    (integrate 1 1 1 1 [1, 2, 3]).getD 1 0 = newVal 1 1 1 (integrate 1 1 1 0 [1, 2, 3]) 1 :=
  interior_update_formula 1 1 1 [1, 2, 3] 0 1 (by decide) (by decide)

/-- C2: at every time step, index 0 of the new field is computed from
the snapshot using the snapshot's index 0 and last-but-one point as the
wraparound neighbor, and the final index is then set equal to the newly
computed index-0 value. -/
theorem periodic_boundary_update (dt dx nu : ℚ) (u0 : List ℚ) (t : ℕ)
    (h : 2 ≤ u0.length) :
    (integrate dt dx nu (t + 1) u0).getD 0 0 =
        boundaryVal dt dx nu (integrate dt dx nu t u0) ∧
      (integrate dt dx nu (t + 1) u0).getD (u0.length - 1) 0 =
        (integrate dt dx nu (t + 1) u0).getD 0 0 := by
  rw [integrate_succ]
  have hv : 2 ≤ (integrate dt dx nu t u0).length := by
    rw [integrate_length]
    exact h
  refine ⟨burgersStep_getD_zero dt dx nu _ hv, ?_⟩
  have hlast := burgersStep_getD_last dt dx nu (integrate dt dx nu t u0) hv
  rw [integrate_length] at hlast
  exact hlast

theorem periodic_boundary_update_witness :
    (integrate 1 1 1 1 [1, 2, 3]).getD 0 0 = boundaryVal 1 1 1 (integrate 1 1 1 0 [1, 2, 3]) ∧
      (integrate 1 1 1 1 [1, 2, 3]).getD 2 0 = (integrate 1 1 1 1 [1, 2, 3]).getD 0 0 :=
  periodic_boundary_update 1 1 1 [1, 2, 3] 0 (by decide)

/-- C3: under the periodic boundary treatment, after each of the first
`n ≥ 1` steps (i.e. after every step count `k ≥ 1`), the field's first
entry equals its last entry. -/
theorem periodic_first_eq_last (dt dx nu : ℚ) (u0 : List ℚ) (n k : ℕ)
    (h : 2 ≤ u0.length) (hk : 1 ≤ k) (hkn : k ≤ n) :
    (integrate dt dx nu k u0).getD 0 0 =
      (integrate dt dx nu k u0).getD (u0.length - 1) 0 := by
  obtain ⟨t, rfl⟩ : ∃ t, k = t + 1 := ⟨k - 1, by omega⟩
  rw [integrate_succ]
  have hv : 2 ≤ (integrate dt dx nu t u0).length := by
    rw [integrate_length]
    exact h
  have hlast := burgersStep_getD_last dt dx nu (integrate dt dx nu t u0) hv
  rw [integrate_length] at hlast
  exact hlast.symm

theorem periodic_first_eq_last_witness :
    (integrate 1 1 1 2 [1, 2, 3]).getD 0 0 =
      (integrate 1 1 1 2 [1, 2, 3]).getD 2 0 :=
  periodic_first_eq_last 1 1 1 [1, 2, 3] 2 2 (by decide) (by decide) (by decide)

/-- C4: within one step every stencil read references only the snapshot
taken at the start of the step, so the step is a pure function of the
snapshot and its result does not depend on the order in which the
interior indices are updated: any sweep order covering the same interior
indices yields exactly the source's step. -/
theorem step_order_independent (dt dx nu : ℚ) (u : List ℚ) (idxs : List ℕ)
    (h : ∀ i, i ∈ idxs ↔ i ∈ List.range' 1 (u.length - 2)) :
    burgersStepWithOrder dt dx nu idxs u = burgersStep dt dx nu u := by
  simp only [burgersStep, burgersStepWithOrder]
  rw [interiorSweep_congr_order dt dx nu u u idxs (List.range' 1 (u.length - 2)) h]

theorem step_order_independent_witness :
    burgersStepWithOrder 1 1 1 [2, 1] [1, 2, 3, 4] = burgersStep 1 1 1 [1, 2, 3, 4] :=
  step_order_independent 1 1 1 [1, 2, 3, 4] [2, 1] (by
    intro i
    show i ∈ [2, 1] ↔ i ∈ List.range' 1 2
    simp only [List.range', List.mem_cons, List.not_mem_nil, or_false]
    tauto)

/-- C5: the time integrator performs exactly `nt` unconditional
iterations of the step function — no early exit, no retry, no
convergence test — and therefore terminates after the `nt`-th
iteration: it is exactly the `nt`-fold iterate of `burgersStep`. -/
theorem integrator_exactly_nt_steps (dt dx nu : ℚ) (nt : ℕ) (u : List ℚ) :
    integrate dt dx nu nt u = (burgersStep dt dx nu)^[nt] u := by
  induction nt generalizing u with
  | zero => rfl
  | succ n ih => rw [integrate, ih, Function.iterate_succ_apply]

/-- C6: running zero steps returns the initial field unchanged. -/
theorem zero_steps_identity (dt dx nu : ℚ) (u : List ℚ) :
    integrate dt dx nu 0 u = u := rfl

/-- C7: two runs with identical simulation parameters and identical
initial fields produce identical final fields — the integrator is a
deterministic function of its inputs. -/
theorem run_deterministic (p₁ p₂ : SimulationParameters) (u₁ u₂ : List ℚ)
    (hp : p₁ = p₂) (hu : u₁ = u₂) : run p₁ u₁ = run p₂ u₂ := by
  rw [hp, hu]

theorem run_deterministic_witness :
    run ⟨2, 1, 1, 1⟩ [1, 2, 3] = run ⟨2, 1, 1, 1⟩ [1, 2, 3] :=
  run_deterministic ⟨2, 1, 1, 1⟩ ⟨2, 1, 1, 1⟩ [1, 2, 3] [1, 2, 3] rfl rfl

/-- C8: grid construction fails with `ConfigurationError` exactly when
the point count is below 2; for point count ≥ 2 it returns the spacing
`L / (points − 1)` and the uniformly spaced coordinate array. -/
theorem grid_construction (L : ℚ) (points : ℕ) :
    (points < 2 → mkGrid L points = .error .invalidGrid) ∧
      (2 ≤ points → mkGrid L points =
        .ok { spacing := L / ((points : ℚ) - 1),
              coords := (List.range points).map
                fun i => (i : ℚ) * (L / ((points : ℚ) - 1)) }) := by
  constructor
  · intro h
    simp only [mkGrid]
    rw [if_pos h]
  · intro h
    simp only [mkGrid]
    rw [if_neg (by omega)]

theorem grid_construction_witness :
    mkGrid 1 1 = .error .invalidGrid ∧ (mkGrid 1 3).isOk = true :=
  ⟨(grid_construction 1 1).1 (by decide),
    by rw [(grid_construction 1 3).2 (by decide)]; rfl⟩

/-- C10: every index touched by one time step — the interior stencil
reads `i-1, i, i+1` for `1 ≤ i ≤ nx-2` and the boundary update's
`0, 1, nx-2, nx-1` — lies within bounds when `nx ≥ 3`, and the step is
a total function preserving the field's length. -/
theorem step_accesses_in_bounds (dt dx nu : ℚ) (u : List ℚ)
    (h : 3 ≤ u.length) :
    (∀ j ∈ stepTouched u.length, j < u.length) ∧
      (burgersStep dt dx nu u).length = u.length := by
  refine ⟨?_, burgersStep_length dt dx nu u⟩
  intro j hj
  simp only [stepTouched, List.mem_append, List.mem_flatMap, List.mem_range'_1,
    List.mem_cons, List.not_mem_nil, or_false] at hj
  rcases hj with ⟨i, ⟨hi1, hi2⟩, hj⟩ | hj
  · rcases hj with h' | h' | h' | h' <;> omega
  · rcases hj with h' | h' | h' | h' <;> omega

theorem step_accesses_in_bounds_witness :
    (∀ j ∈ stepTouched 3, j < 3) ∧ (burgersStep 1 1 1 [1, 2, 3]).length = 3 :=
  step_accesses_in_bounds 1 1 1 [1, 2, 3] (by decide)

end Burgers
